import Mathlib

/-!
Verification development for the seq2seq neural machine translation demo
(`backend/model.py`): text preprocessing, Keras-style tokenization, the
Bahdanau attention normalization, the teacher-forced training step, the
greedy inference loop, the process entry point, and the dataset split.

Python strings are modelled as `List Char` (wrapped into `String` at the
interface), tensors of token ids as `List Nat` / `List (List Nat)`, and
exact rational / abstract arithmetic stands in for the framework's float
tensors.  Fallible Python code (dict lookups raising `KeyError`, `int()`
raising `ValueError`) is modelled with `Option` / `Except`.
-/

namespace NMT

/-! ## Text preprocessor (`unicode_to_ascii`, `preprocess_sentence`, model.py 20-40) -/

/-- Unicode combining marks (category `Mn`) as removed by `unicode_to_ascii`:
the combining diacritical marks block, which covers every mark produced by the
NFD decompositions in `nfdTable` below. -/
def isMn (c : Char) : Bool := 0x300 ≤ c.toNat && c.toNat ≤ 0x36F

/-- NFD decomposition table, restricted to the accented Latin letters that occur
in the eng/fra corpus.  Characters without an entry decompose to themselves,
which is exact for all ASCII characters and for `¿`; every theorem below only
depends on the table's values on characters where it agrees with full NFD. -/
def nfdTable : List (Char × List Char) :=
  [ ('à', ['a', '̀']), ('á', ['a', '́']), ('â', ['a', '̂']), ('ä', ['a', '̈']),
    ('ç', ['c', '̧']), ('é', ['e', '́']), ('è', ['e', '̀']),
    ('ê', ['e', '̂']), ('ë', ['e', '̈']), ('í', ['i', '́']), ('î', ['i', '̂']),
    ('ï', ['i', '̈']), ('ñ', ['n', '̃']), ('ó', ['o', '́']), ('ô', ['o', '̂']),
    ('ö', ['o', '̈']), ('ú', ['u', '́']), ('ù', ['u', '̀']), ('û', ['u', '̂']),
    ('ü', ['u', '̈']), ('ÿ', ['y', '̈']) ]

/-- NFD normalisation of a single character (see `nfdTable`). -/
def nfd (c : Char) : List Char := (nfdTable.lookup c).getD [c]

/-- `unicode_to_ascii` (model.py 20-21): NFD-normalise, then drop combining marks. -/
def unicode_to_ascii (s : List Char) : List Char :=
  ((s.map nfd).flatten).filter (fun c => !(isMn c))

/-- Lowercasing table for the accented capitals matching `nfdTable`; ASCII
capitals are handled arithmetically, all other characters are unchanged
(exact for every character the theorems below evaluate `pyLower` on). -/
def lowerTable : List (Char × Char) :=
  [ ('À', 'à'), ('Á', 'á'), ('Â', 'â'), ('Ä', 'ä'), ('Ç', 'ç'), ('É', 'é'),
    ('È', 'è'), ('Ê', 'ê'), ('Ë', 'ë'), ('Í', 'í'), ('Î', 'î'), ('Ï', 'ï'),
    ('Ñ', 'ñ'), ('Ó', 'ó'), ('Ô', 'ô'), ('Ö', 'ö'), ('Ú', 'ú'), ('Ù', 'ù'),
    ('Û', 'û'), ('Ü', 'ü') ]

/-- Python `str.lower` on one character: the table above for accented
capitals, the ASCII rule (codepoints 65-90 shift by 32) otherwise. -/
def pyLower (c : Char) : Char :=
  match lowerTable.lookup c with
  | some d => d
  | none => if 65 ≤ c.toNat && c.toNat ≤ 90 then Char.ofNat (c.toNat + 32) else c

/-- Python whitespace for `str.strip` (the characters relevant here). -/
def isWs (c : Char) : Bool := c == ' ' || c == '\t' || c == '\n' || c == '\r'

/-- Strip trailing whitespace. -/
def stripEnd (s : List Char) : List Char := (s.reverse.dropWhile isWs).reverse

/-- Python `str.strip`: drop leading and trailing whitespace. -/
def pyStrip (s : List Char) : List Char := stripEnd (s.dropWhile isWs)

/-- The four punctuation marks (plus `¿`) of the two regexes in
`preprocess_sentence`. -/
def isPunct (c : Char) : Bool := c == '?' || c == '.' || c == '!' || c == ',' || c == '¿'

/-- First substitution (model.py 29): put a space on each side of every
punctuation character. -/
def sub1 (s : List Char) : List Char :=
  (s.map (fun c => if isPunct c then [' ', c, ' '] else [c])).flatten

/-- Character class of the second substitution (model.py 30), the regex
`[" "]+`: a double quote or a space. -/
def p2 (c : Char) : Bool := c == '"' || c == ' '

/-- Characters kept by the third substitution (model.py 33): `a-z` (codepoints
97-122), `A-Z` (codepoints 65-90) and the punctuation marks. -/
def allowedChar (c : Char) : Bool :=
  (97 ≤ c.toNat && c.toNat ≤ 122) || (65 ≤ c.toNat && c.toNat ≤ 90) || isPunct c

/-- Character class replaced by the third substitution: everything outside
`allowedChar`. -/
def p3 (c : Char) : Bool := !(allowedChar c)

/-- `re.sub(r"<class>+", " ", w)`: replace every maximal run of characters
satisfying `p` by a single space.  The flag records whether the previous
character belonged to the current run. -/
def collapseRuns (p : Char → Bool) : Bool → List Char → List Char
  | _, [] => []
  | prev, c :: cs =>
    if p c then
      if prev then collapseRuns p true cs else ' ' :: collapseRuns p true cs
    else c :: collapseRuns p false cs

/-- The body of `preprocess_sentence` without the final marker wrapping
(model.py 24-35): lowercase, strip, drop accents, space out punctuation,
collapse space runs, replace non-letter non-punctuation runs, strip. -/
def coreL (s : List Char) : List Char :=
  pyStrip (collapseRuns p3 false (collapseRuns p2 false
    (sub1 (unicode_to_ascii (pyStrip (s.map pyLower))))))

/-- Wrapping with the start and end markers (model.py 39). -/
def markL (s : List Char) : List Char := "<start> ".data ++ s ++ " <end>".data

/-- `preprocess_sentence` (model.py 23-40). -/
def preprocess_sentence (s : String) : String := String.mk (markL (coreL s.data))

/-! ## Tokenization (`tokenize`, model.py 54-61)

`tf.keras.preprocessing.text.Tokenizer(filters='')` is third-party code; it is
modelled here by its actual semantics: `fit_on_texts` counts word occurrences
in an insertion-ordered dictionary, sorts the words by decreasing count with a
stable sort, and assigns ids starting at 1 in that order; `texts_to_sequences`
maps each text to the ids of its known tokens. -/

/-- Python `str.split(sep)` with a one-character separator: split at every
occurrence, keeping empty pieces. -/
def splitSp : List Char → List (List Char)
  | [] => [[]]
  | c :: rest =>
    match splitSp rest with
    | [] => [[c]]
    | t :: ts => if c = ' ' then [] :: t :: ts else (c :: t) :: ts

/-- Keras `text_to_word_sequence` with `filters=''`, `lower=True`,
`split=' '`: lowercase, split on spaces, drop empty tokens. -/
def textTokens (s : List Char) : List (List Char) :=
  (splitSp (s.map pyLower)).filter (fun t => !t.isEmpty)

/-- One `word_counts[w] += 1` update of the insertion-ordered counts
dictionary: bump the existing entry or append a fresh one at the back. -/
def addCount : List (List Char × Nat) → List Char → List (List Char × Nat)
  | [], w => [(w, 1)]
  | p :: ps, w => if p.1 = w then (p.1, p.2 + 1) :: ps else p :: addCount ps w

/-- `fit_on_texts`: the `word_counts` association list, keys in order of first
occurrence. -/
def wordCounts (texts : List (List Char)) : List (List Char × Nat) :=
  texts.foldl (fun wc t => (textTokens t).foldl addCount wc) []

/-- One step of the stable descending sort by count: insert after every
element with a greater-or-equal count (so earlier equal-count words stay
first, as with Python's stable `list.sort`). -/
def insertByCount (x : List Char × Nat) : List (List Char × Nat) → List (List Char × Nat)
  | [] => [x]
  | y :: ys => if y.2 < x.2 then x :: y :: ys else y :: insertByCount x ys

/-- `wcounts.sort(key=count, reverse=True)`: stable sort by decreasing count. -/
def sortByCountDesc (l : List (List Char × Nat)) : List (List Char × Nat) :=
  l.foldl (fun acc x => insertByCount x acc) []

/-- The tokenizer's `word_index`: words sorted by decreasing count paired with
ids `1, 2, 3, ...`. -/
def word_index (texts : List (List Char)) : List (List Char × Nat) :=
  ((sortByCountDesc (wordCounts texts)).map Prod.fst).zip
    (List.range' 1 ((sortByCountDesc (wordCounts texts)).map Prod.fst).length)

/-- The tokenizer's `index_word`, the inverse mapping id → word; ids without a
word (such as the padding id 0) have no entry. -/
def index_word (texts : List (List Char)) (i : Nat) : Option (List Char) :=
  ((word_index texts).find? (fun p => p.2 == i)).map Prod.fst

/-- All tokens of the corpus, in order. -/
def allTokens (texts : List (List Char)) : List (List Char) :=
  (texts.map textTokens).flatten

/-- Vocabulary construction as the spec's words describe it (for comparison
with `word_index`): ids assigned to the distinct tokens in order of first
occurrence, starting at 1.  The keys of `wordCounts` are exactly the distinct
tokens in first-occurrence order. -/
def word_index_firstOcc (texts : List (List Char)) : List (List Char × Nat) :=
  ((wordCounts texts).map Prod.fst).zip
    (List.range' 1 ((wordCounts texts).map Prod.fst).length)

/-- `texts_to_sequences` on one text: the ids of its known tokens. -/
def textToSequence (texts : List (List Char)) (s : List Char) : List Nat :=
  (textTokens s).filterMap (fun w => (word_index texts).lookup w)

/-! ## Masked loss (`loss_function`, model.py 42-51)

`SparseCategoricalCrossentropy(from_logits=True, reduction='none')` is
framework code producing one nonnegative real per batch element; its output
vector is therefore a parameter `ce` here (exact rationals stand in for
floats).  The function itself contributes the mask and the mean. -/

/-- The vector `loss_ * mask` (model.py 45-49): the per-example loss with
padding positions (`real == 0`) zeroed out. -/
def maskedCE (real : List Nat) (ce : List ℚ) : List ℚ :=
  List.zipWith (fun r l => (if r = 0 then (0 : ℚ) else 1) * l) real ce

/-- `loss_function` (model.py 42-51): mean of the masked per-example losses. -/
def loss_function (real : List Nat) (ce : List ℚ) : ℚ :=
  (maskedCE real ce).sum / (maskedCE real ce).length

/-! ## Teacher-forced training step (`train_step`, model.py 237-262)

The decoder (embedding + attention + GRU + projection) is framework-driven
numeric code; it enters the model as an opaque function from (decoder input
tokens, hidden state, encoder output) to (logits, new hidden state), and the
per-example crossentropy as an opaque function `sce` from (true tokens,
logits) to the loss vector.  The loop structure, the loss accumulation and
the teacher forcing are modelled exactly. -/

/-- Column `t` of the target batch: `targ[:, t]`. -/
def colAt (targ : List (List Nat)) (t : Nat) : List Nat :=
  targ.map (fun row => row.getD t 0)

/-- The state carried through the decoding loop of `train_step`: the next
decoder input, the decoder hidden state, and the accumulated loss. -/
structure StepState (H : Type u) where
  decInput : List Nat
  hidden : H
  loss : ℚ

/-- The loop body of `train_step` folded over a list of timesteps: at each
timestep `t`, run the decoder on the current state, add the masked loss
against column `t` of the targets, and set the next decoder input to column
`t` of the targets (teacher forcing, model.py 248-256). -/
def trainStepGo {H : Type u} {E : Type v} {L : Type w}
    (decoder : List Nat → H → E → L × H) (sce : List Nat → L → List ℚ)
    (encOutput : E) (targ : List (List Nat))
    (init : StepState H) (ts : List Nat) : StepState H :=
  ts.foldl
    (fun s t =>
      let pr := decoder s.decInput s.hidden encOutput
      { decInput := colAt targ t
        hidden := pr.2
        loss := s.loss + loss_function (colAt targ t) (sce (colAt targ t) pr.1) })
    init

/-- The initial state of the `train_step` loop: the decoder input is the
start-marker id broadcast across the batch (model.py 244-245). -/
def trainStepInit {H : Type u} (startId : Nat) (batchSz : Nat) (encHidden : H) :
    StepState H :=
  { decInput := List.replicate batchSz startId, hidden := encHidden, loss := 0 }

/-- `train_step` (model.py 237-262): the loop runs over timesteps
`1, ..., T-1` where `T = targ.shape[1]`. -/
def train_step {H : Type u} {E : Type v} {L : Type w}
    (decoder : List Nat → H → E → L × H) (sce : List Nat → L → List ℚ)
    (encOutput : E) (targ : List (List Nat))
    (startId batchSz T : Nat) (encHidden : H) : StepState H :=
  trainStepGo decoder sce encOutput targ (trainStepInit startId batchSz encHidden)
    (List.range' 1 (T - 1))

/-! ## Bahdanau attention (`BahdanauAttention.call`, model.py 90-110)

Dense layers are explicit rational matrices; the framework's `tanh` and the
exponential inside `tf.nn.softmax` are opaque real functions, abstracted as
parameters (`softmax` only uses that the exponential is strictly positive). -/

/-- A dense layer `y = x W + b`, with `W` given as a list of columns. -/
def denseApply (W : List (List ℚ)) (b : List ℚ) (x : List ℚ) : List ℚ :=
  List.zipWith (fun col bj => (List.zipWith (fun xi wij => xi * wij) x col).sum + bj) W b

/-- Alignment scores (model.py 100-101): for each encoder timestep `v`,
`V(tanh(W1(query) + W2(v)))`, with the nonlinearity `tanh` a parameter. -/
def attnScores (tanh : ℚ → ℚ) (W1 : List (List ℚ)) (b1 : List ℚ)
    (W2 : List (List ℚ)) (b2 : List ℚ) (v : List ℚ) (bV : ℚ)
    (query : List ℚ) (values : List (List ℚ)) : List ℚ :=
  values.map (fun val =>
    (List.zipWith (fun xi wi => xi * wi)
      (List.map tanh
        (List.zipWith (· + ·) (denseApply W1 b1 query) (denseApply W2 b2 val))) v).sum + bV)

/-- `tf.nn.softmax` over the time axis, the exponential abstracted as a
strictly positive parameter `E`. -/
def softmax (E : ℚ → ℚ) (xs : List ℚ) : List ℚ :=
  xs.map (fun x => E x / (xs.map E).sum)

/-- The attention weights of `BahdanauAttention.call` (model.py 104). -/
def attentionWeights (E tanh : ℚ → ℚ) (W1 : List (List ℚ)) (b1 : List ℚ)
    (W2 : List (List ℚ)) (b2 : List ℚ) (v : List ℚ) (bV : ℚ)
    (query : List ℚ) (values : List (List ℚ)) : List ℚ :=
  softmax E (attnScores tanh W1 b1 W2 b2 v bV query values)

/-! ## Greedy inference (`evaluate`, model.py 289-317) -/

/-- Looking up the id of every token of the preprocessed sentence
(model.py 292): the comprehension raises `KeyError` at the first unknown
token, modelled as `none`. -/
def lookupAll (wi : List Char → Option Nat) : List (List Char) → Option (List Nat)
  | [] => some []
  | t :: ts =>
    match wi t, lookupAll wi ts with
    | some i, some rest => some (i :: rest)
    | _, _ => none

/-- `pad_sequences(..., maxlen, padding='post')` on a single row: truncate
from the front when too long (the Keras default `truncating='pre'`),
post-pad with the padding id 0 when too short. -/
def padPost (maxlen : Nat) (l : List Nat) : List Nat :=
  if maxlen ≤ l.length then l.drop (l.length - maxlen)
  else l ++ List.replicate (maxlen - l.length) 0

/-- The outcome of the decode loop: the emitted tokens (or a lookup error),
together with the argmax token id of every decoder invocation that ran. -/
structure DecodeOut where
  result : Except Unit (List (List Char))
  pids : List Nat

/-- The greedy decoding loop of `evaluate` (model.py 306-315).  `predict`
packages one decoder invocation followed by the argmax over its logits
(framework code): it maps the previous token id and hidden state to the
argmax id and the next hidden state (the fixed encoder output is captured
inside it).  An id without an `index_word` entry raises `KeyError`
(`none` → error); the end marker stops the loop without being emitted;
otherwise the word is appended and the id fed back. -/
def decodeLoop {H : Type u} (predict : Nat → H → Nat × H)
    (iw : Nat → Option (List Char)) :
    Nat → Nat → H → List (List Char) → List Nat → DecodeOut
  | 0, _, _, acc, pids => ⟨.ok acc, pids⟩
  | fuel + 1, decInput, h, acc, pids =>
    match iw (predict decInput h).1 with
    | none => ⟨.error (), pids ++ [(predict decInput h).1]⟩
    | some w =>
      if w = "<end>".data then ⟨.ok acc, pids ++ [(predict decInput h).1]⟩
      else decodeLoop predict iw fuel (predict decInput h).1 (predict decInput h).2
        (acc ++ [w]) (pids ++ [(predict decInput h).1])

/-- `evaluate` (model.py 289-317): preprocess, look up the input ids (hard
failures on unknown tokens), pad, encode (`encode` packages the encoder run
into the initial hidden state consumed by `predict`), then greedily decode
for at most `maxLenTarg` steps. -/
def evaluate {H : Type u} (inpWI : List Char → Option Nat)
    (targWI : List Char → Option Nat) (iw : Nat → Option (List Char))
    (encode : List Nat → H) (predict : Nat → H → Nat × H)
    (maxLenInp maxLenTarg : Nat) (s : String) : DecodeOut :=
  match lookupAll inpWI (splitSp (markL (coreL s.data))) with
  | none => ⟨.error (), []⟩
  | some inputs =>
    match targWI "<start>".data with
    | none => ⟨.error (), []⟩
    | some startId =>
      decodeLoop predict iw maxLenTarg startId (encode (padPost maxLenInp inputs)) [] []

/-! ## Process entry point (model.py 332-348) -/

/-- Digits-to-number accumulator for `pyInt`. -/
def digitsVal (ds : List Char) : Nat :=
  ds.foldl (fun n c => 10 * n + (c.toNat - 48)) 0

/-- Python `int(str)`: optional surrounding whitespace, optional sign, one or
more digits; anything else raises `ValueError` (`none`). -/
def pyInt (s : String) : Option Int :=
  match pyStrip s.data with
  | [] => none
  | '-' :: ds =>
    if ds ≠ [] ∧ ds.all Char.isDigit then some (-(digitsVal ds : Int)) else none
  | '+' :: ds =>
    if ds ≠ [] ∧ ds.all Char.isDigit then some (digitsVal ds : Int) else none
  | ds => if ds.all Char.isDigit then some (digitsVal ds : Int) else none

/-- The `__main__` block (model.py 332-348), observed for `iters` iterations
of its infinite service loop: `lang` defaults to `"eng-fra"`, the epoch-count
argument is parsed with `int` (a parse failure crashes the process before any
training), then `epochs` is unconditionally reassigned to `10` (line 341) and
each loop iteration calls `model.train(epochs)`.  The value returned is the
language pair together with the epoch count passed to every `train` call. -/
def mainTrainCalls (argv : List String) (iters : Nat) :
    Except Unit (String × List Nat) :=
  let lang := if 1 < argv.length then argv.getD 1 "" else "eng-fra"
  let parsed : Except Unit (Option Int) :=
    if 2 < argv.length then
      match pyInt (argv.getD 2 "") with
      | some n => .ok (some n)
      | none => .error ()
    else .ok none
  match parsed with
  | .error e => .error e
  | .ok _ =>
    let epochs := 10
    .ok (lang, List.replicate iters epochs)

/-! ## Dataset split and batching (`_load` 225-235, `train` 265-283)

`sklearn.train_test_split(..., test_size=0.2)` shuffles the `N` examples and
holds out `ceil(0.2 * N)` of them; it is modelled by an arbitrary permutation
`perm1` of the pairs, with the validation set its first `nTest N` elements and
the training set the rest.  `Dataset.shuffle` is a second arbitrary
permutation `perm2`; `batch(BATCH_SIZE, drop_remainder=True)` keeps only the
full batches, and each epoch takes `steps_per_epoch = len(train) // 64` of
them. -/

/-- `ceil(0.2 * N)`, the sklearn test-set size for `test_size=0.2`. -/
def nTest (n : Nat) : Nat := (n + 4) / 5

/-- `batch(bs, drop_remainder=True)`: the `len / bs` full consecutive chunks
of size `bs`. -/
def fullBatches (bs : Nat) (l : List α) : List (List α) :=
  (List.range (l.length / bs)).map (fun i => (l.drop (i * bs)).take bs)

/-- The batches one training epoch iterates over (model.py 272):
`dataset.take(steps_per_epoch)` on the batched shuffled training split. -/
def epochBatches (trainLen : Nat) (shuffledTrain : List α) : List (List α) :=
  (fullBatches 64 shuffledTrain).take (trainLen / 64)

/-! ## Analysis-only definitions for the idempotence question

These describe shapes of intermediate strings inside `preprocess_sentence`;
they model no Python code. -/

/-- Lowercase ASCII letter or space: the characters of the pumping prefixes
below. -/
def plainLS (c : Char) : Bool := (97 ≤ c.toNat && c.toNat ≤ 122) || c == ' '

/-- A list is clean for a run predicate `p` when every `p`-character in it is
a space immediately followed by a non-`p` character (so runs inside it are
single spaces, and it does not end in a run character).  `collapseRuns p`
passes such a list through unchanged. -/
def cleanFor (p : Char → Bool) : List Char → Bool
  | [] => true
  | [c] => !(p c)
  | c :: d :: cs => (if p c then c == ' ' && !(p d) else true) && cleanFor p (d :: cs)

/-- The head of the list exists and is not a run character. -/
def headNotP (p : Char → Bool) : List Char → Bool
  | [] => false
  | c :: _ => !(p c)

/-- The pumping family: `start`, `start start`, `start start start`, ... -/
def xword : Nat → List Char
  | 0 => "start".data
  | n + 1 => "start ".data ++ xword n

/-! ## Theorems -/

/-- The spec's representative preprocessing example. -/
theorem preprocess_go_test :
    preprocess_sentence "Go." = "<start> go . <end>" := by decide

/-- C1: In every training step, for each target timestep `t` from `1` to
`T-1`, the input fed to the Decoder at the next step is the true target token
at position `t` from the training batch (column `t` of `targ`), not the token
predicted by the model: the state after the loop iterations `1..t` has
`decInput = colAt targ t` for every decoder and crossentropy whatsoever, and
`train_step` continues from exactly that state for the remaining timesteps. -/
theorem teacher_forcing {H : Type u} {E : Type v} {L : Type w}
    (decoder : List Nat → H → E → L × H) (sce : List Nat → L → List ℚ)
    (encOutput : E) (targ : List (List Nat)) (init : StepState H)
    (startId batchSz T : Nat) (encHidden : H) (t : Nat)
    (h1 : 1 ≤ t) (h2 : t ≤ T - 1) :
    (trainStepGo decoder sce encOutput targ init (List.range' 1 t)).decInput
        = colAt targ t ∧
    train_step decoder sce encOutput targ startId batchSz T encHidden =
      trainStepGo decoder sce encOutput targ
        (trainStepGo decoder sce encOutput targ (trainStepInit startId batchSz encHidden)
          (List.range' 1 t)) (List.range' (1 + t) (T - 1 - t)) := by
  constructor
  · obtain ⟨n, rfl⟩ : ∃ n, t = n + 1 := ⟨t - 1, by omega⟩
    rw [List.range'_1_concat]
    unfold trainStepGo
    rw [List.foldl_append]
    simp [Nat.add_comm]
  · unfold train_step trainStepGo
    rw [← List.foldl_append]
    congr 1
    have h3 : (1 : Nat) + 1 * t = 1 + t := by ring
    rw [← h3, List.range'_append]
    congr 1
    omega

/-- Witness for C1 at a concrete batch. -/
theorem teacher_forcing_witness :
    (trainStepGo (fun _ _ _ => ((), 0)) (fun _ _ => []) 0 [[7, 8, 9]]
        (trainStepInit 5 1 0) (List.range' 1 2)).decInput = colAt [[7, 8, 9]] 2 :=
  (teacher_forcing (H := Nat) (E := Nat) (L := Unit)
    (fun _ _ _ => ((), 0)) (fun _ _ => []) 0 [[7, 8, 9]] (trainStepInit 5 1 0)
    5 1 3 0 2 (by decide) (by decide)).1

/-- Helper for C2: the masked loss vector is exactly `0` at every padding
position. -/
theorem maskedCE_getElem_zero : ∀ (real : List Nat) (ce : List ℚ) (i : Nat),
    real[i]? = some 0 → i < ce.length → (maskedCE real ce)[i]? = some (0 : ℚ)
  | [], _, i, h, _ => by simp at h
  | _ :: _, [], _, _, hl => by simp at hl
  | r :: rs, c :: cs, 0, h, hl => by
    simp only [List.getElem?_cons_zero, Option.some.injEq] at h
    simp [maskedCE, h]
  | r :: rs, c :: cs, i + 1, h, hl => by
    simp only [List.getElem?_cons_succ] at h
    simp only [List.length_cons] at hl
    simpa [maskedCE] using maskedCE_getElem_zero rs cs i h (by omega)

/-- Helper for C2: the masked loss vector does not depend on the predicted
loss at a padding position. -/
theorem maskedCE_set : ∀ (real : List Nat) (ce : List ℚ) (i : Nat) (x : ℚ),
    real[i]? = some 0 → maskedCE real (ce.set i x) = maskedCE real ce
  | [], _, _, _, h => by simp at h
  | _ :: _, [], _, _, _ => by simp [maskedCE]
  | r :: rs, c :: cs, 0, x, h => by
    simp only [List.getElem?_cons_zero, Option.some.injEq] at h
    simp [maskedCE, h]
  | r :: rs, c :: cs, i + 1, x, h => by
    simp only [List.getElem?_cons_succ] at h
    have ih := maskedCE_set rs cs i x h
    simp only [maskedCE] at ih ⊢
    rw [List.set_cons_succ, List.zipWith_cons_cons, List.zipWith_cons_cons, ih]

/-- C2: For every batch and every target position, if the true token id at
that position is `0` (padding), that position contributes exactly `0` to the
training loss, regardless of the predicted logits there: the masked loss at
the position is `0`, and replacing the crossentropy value at that position by
anything leaves `loss_function` unchanged. -/
theorem padding_zero_loss (real : List Nat) (ce : List ℚ) (i : Nat)
    (hlen : real.length = ce.length) (h : real[i]? = some 0) :
    (maskedCE real ce)[i]? = some (0 : ℚ) ∧
    ∀ x : ℚ, loss_function real (ce.set i x) = loss_function real ce := by
  constructor
  · have hi : i < real.length := by
      by_contra hge
      rw [List.getElem?_eq_none (by omega)] at h
      exact Option.noConfusion h
    exact maskedCE_getElem_zero real ce i h (by omega)
  · intro x
    unfold loss_function
    rw [maskedCE_set real ce i x h]

/-- Witness for C2 at a concrete batch. -/
theorem padding_zero_loss_witness :
    (maskedCE [0, 3] [5, 7])[0]? = some (0 : ℚ) ∧
    loss_function [0, 3] (([5, 7] : List ℚ).set 0 100) = loss_function [0, 3] [5, 7] := by
  have h := padding_zero_loss [0, 3] [5, 7] 0 (by decide) (by decide)
  exact ⟨h.1, h.2 100⟩

/-- Helper for C5: sums of pointwise quotients. -/
theorem sum_map_div (xs : List ℚ) (f : ℚ → ℚ) (S : ℚ) :
    (xs.map (fun x => f x / S)).sum = (xs.map f).sum / S := by
  induction xs with
  | nil => simp
  | cons a l ih => simp [ih, add_div]

/-- Helper for C5: a nonempty sum of positive values is positive. -/
theorem sum_map_pos (xs : List ℚ) (E : ℚ → ℚ) (hE : ∀ x, 0 < E x) (h : xs ≠ []) :
    0 < (xs.map E).sum := by
  cases xs with
  | nil => exact absurd rfl h
  | cons a l =>
    simp only [List.map_cons, List.sum_cons]
    have h1 : 0 ≤ (l.map E).sum :=
      List.sum_nonneg (by
        intro x hx
        obtain ⟨y, _, rfl⟩ := List.mem_map.mp hx
        exact le_of_lt (hE y))
    have h2 := hE a
    linarith

/-- C5: For every query hidden state and every (nonempty) encoder output
sequence, the attention weights returned by `BahdanauAttention.call` sum to 1
across the encoder time axis, for any weights and any strictly positive
exponential inside the softmax. -/
theorem attention_weights_sum_one (E tanh : ℚ → ℚ) (hE : ∀ x, 0 < E x)
    (W1 : List (List ℚ)) (b1 : List ℚ) (W2 : List (List ℚ)) (b2 : List ℚ)
    (v : List ℚ) (bV : ℚ) (query : List ℚ) (values : List (List ℚ))
    (hv : values ≠ []) :
    (attentionWeights E tanh W1 b1 W2 b2 v bV query values).sum = 1 := by
  unfold attentionWeights softmax
  have hne : attnScores tanh W1 b1 W2 b2 v bV query values ≠ [] := by
    unfold attnScores
    simpa using hv
  rw [sum_map_div]
  exact div_self (ne_of_gt (sum_map_pos _ E hE hne))

/-- Witness for C5 at concrete weights and a one-step encoder output. -/
theorem attention_weights_sum_one_witness :
    (attentionWeights (fun _ => 1) (fun x => x) [[0]] [0] [[0]] [0] [0] 0
      [0] [[0]]).sum = 1 :=
  attention_weights_sum_one (fun _ => 1) (fun x => x) (fun _ => one_pos)
    [[0]] [0] [[0]] [0] [0] 0 [0] [[0]] (by decide)

/-- C8: For every process invocation, the training driven from the process
entry point runs 10 epochs per `train` call regardless of the epoch-count
positional argument: whenever the entry point reaches the service loop, every
`train` call receives `10`, even when the argument parsed to some other
number. -/
theorem epochs_always_ten (argv : List String) (iters : Nat) :
    (∀ lang calls, mainTrainCalls argv iters = .ok (lang, calls) →
      calls = List.replicate iters 10) ∧
    (∀ k : Int, 2 < argv.length → pyInt (argv.getD 2 "") = some k →
      mainTrainCalls argv iters =
        .ok (if 1 < argv.length then argv.getD 1 "" else "eng-fra",
          List.replicate iters 10)) := by
  constructor
  · intro lang calls h
    unfold mainTrainCalls at h
    by_cases h2 : 2 < argv.length
    · simp only [h2, if_true] at h
      cases hp : pyInt (argv.getD 2 "") with
      | none => rw [hp] at h; exact Except.noConfusion h
      | some n =>
        rw [hp] at h
        simp only [Except.ok.injEq, Prod.mk.injEq] at h
        exact h.2.symm
    · simp only [h2, if_false] at h
      simp only [Except.ok.injEq, Prod.mk.injEq] at h
      exact h.2.symm
  · intro k h2 hk
    unfold mainTrainCalls
    rw [if_pos h2, hk]

/-- Witness for C8: the epoch argument `25` is parsed yet every `train` call
still receives `10`. -/
theorem epochs_always_ten_witness :
    pyInt "25" = some 25 ∧
    mainTrainCalls ["model.py", "eng-fra", "25"] 2 = .ok ("eng-fra", [10, 10]) := by
  refine ⟨by decide, ?_⟩
  have h := (epochs_always_ten ["model.py", "eng-fra", "25"] 2).2 25
    (by decide) (by decide)
  simpa using h

/-- C10: After loading `N` pairs, the held-out set has `ceil(N/5)` pairs and
the training split `floor(0.8*N)`; each epoch iterates exactly
`floor(0.8*N/64)` batches, every batch has size 64 and consists only of
training-split pairs (so the held-out pairs never reach a training step), a
training split smaller than 64 yields zero batches, and a nonempty corpus is
never seen whole by training.  `perm1` is the `train_test_split` shuffle and
`perm2` the `Dataset.shuffle`. -/
theorem train_split_batches {α : Type u} (pairs perm1 perm2 : List α)
    (h1 : perm1.Perm pairs) (h2 : perm2.Perm (perm1.drop (nTest pairs.length))) :
    (perm1.drop (nTest pairs.length)).length = 4 * pairs.length / 5 ∧
    (epochBatches (perm1.drop (nTest pairs.length)).length perm2).length
        = 4 * pairs.length / 5 / 64 ∧
    4 * pairs.length / 5 / 64 = 4 * pairs.length / 320 ∧
    (∀ b ∈ epochBatches (perm1.drop (nTest pairs.length)).length perm2,
      b.length = 64 ∧ ∀ x ∈ b, x ∈ perm1.drop (nTest pairs.length)) ∧
    ((perm1.drop (nTest pairs.length)).length < 64 →
      epochBatches (perm1.drop (nTest pairs.length)).length perm2 = []) ∧
    (1 ≤ pairs.length →
      (perm1.drop (nTest pairs.length)).length < pairs.length) := by
  have hlp1 : perm1.length = pairs.length := h1.length_eq
  have htr : (perm1.drop (nTest pairs.length)).length
      = pairs.length - nTest pairs.length := by
    rw [List.length_drop, hlp1]
  have hlen : (perm1.drop (nTest pairs.length)).length = 4 * pairs.length / 5 := by
    rw [htr]; unfold nTest; omega
  have hlp2 : perm2.length = (perm1.drop (nTest pairs.length)).length := h2.length_eq
  have hfb : (fullBatches 64 perm2).length = perm2.length / 64 := by
    unfold fullBatches
    rw [List.length_map, List.length_range]
  refine ⟨hlen, ?_, ?_, ?_, ?_, ?_⟩
  · unfold epochBatches
    rw [List.length_take, hfb, hlp2, hlen, min_self]
  · rw [Nat.div_div_eq_div_mul]
  · intro b hb
    have hb2 : b ∈ fullBatches 64 perm2 := List.take_subset _ _ hb
    unfold fullBatches at hb2
    obtain ⟨i, hi, rfl⟩ := List.mem_map.mp hb2
    rw [List.mem_range] at hi
    have hib : (i + 1) * 64 ≤ perm2.length := by
      calc (i + 1) * 64 ≤ perm2.length / 64 * 64 :=
            Nat.mul_le_mul_right 64 (by omega)
        _ ≤ perm2.length := Nat.div_mul_le_self _ _
    constructor
    · rw [List.length_take, List.length_drop]
      omega
    · intro x hx
      have hx2 : x ∈ perm2 :=
        List.drop_subset _ _ (List.take_subset _ _ hx)
      exact h2.subset hx2
  · intro hlt
    unfold epochBatches
    rw [Nat.div_eq_of_lt hlt, List.take_zero]
  · intro hpos
    rw [htr]
    unfold nTest
    omega

/-- C4 counterexample: the Keras tokenizer does **not** assign ids in order of
first occurrence.  On the corpus `["a b b"]`, the word `a` occurs first yet
receives id 2, because `b` is more frequent; the first-occurrence assignment
described by the spec differs from the code's. -/
theorem tokenizer_not_first_occurrence :
    word_index ["a b b".data] = [("b".data, 1), ("a".data, 2)] ∧
    word_index_firstOcc ["a b b".data] = [("a".data, 1), ("b".data, 2)] ∧
    word_index ["a b b".data] ≠ word_index_firstOcc ["a b b".data] :=
  ⟨by decide, by decide, by decide⟩

/-- Helper: every id assigned by `word_index` is at least 1. -/
theorem word_index_ids_pos (texts : List (List Char)) :
    ∀ p ∈ word_index texts, 1 ≤ p.2 := by
  intro p hp
  unfold word_index at hp
  have h2 := (List.of_mem_zip hp).2
  rw [List.mem_range'_1] at h2
  exact h2.1

/-- Helper: inserting into the count-sorted list is a permutation. -/
theorem insertByCount_perm (x : List Char × Nat) :
    ∀ l, (insertByCount x l).Perm (x :: l)
  | [] => List.Perm.refl _
  | y :: ys => by
    unfold insertByCount
    by_cases h : y.2 < x.2
    · rw [if_pos h]
    · rw [if_neg h]
      exact ((insertByCount_perm x ys).cons y).trans (List.Perm.swap x y ys)

/-- Helper: inserting preserves the descending-by-count ordering. -/
theorem insertByCount_sorted (x : List Char × Nat) :
    ∀ l, List.Pairwise (fun a b => b.2 ≤ a.2) l →
      List.Pairwise (fun a b => b.2 ≤ a.2) (insertByCount x l)
  | [], _ => List.pairwise_singleton _ x
  | y :: ys, h => by
    unfold insertByCount
    rw [List.pairwise_cons] at h
    by_cases hy : y.2 < x.2
    · rw [if_pos hy]
      refine List.pairwise_cons.mpr ⟨?_, List.pairwise_cons.mpr h⟩
      intro z hz
      rcases List.mem_cons.mp hz with rfl | hz
      · omega
      · have := h.1 z hz
        omega
    · rw [if_neg hy]
      refine List.pairwise_cons.mpr ⟨?_, insertByCount_sorted x ys h.2⟩
      intro z hz
      rcases List.mem_cons.mp ((insertByCount_perm x ys).mem_iff.mp hz)
        with rfl | hz
      · omega
      · exact h.1 z hz

/-- Helper (stability): on a descending list, inserting an element of count
`c` appends it after every earlier element of count `c`. -/
theorem insertByCount_filter (x : List Char × Nat) (c : Nat) :
    ∀ l, List.Pairwise (fun a b => b.2 ≤ a.2) l →
      (insertByCount x l).filter (fun p => p.2 == c)
        = if x.2 = c then l.filter (fun p => p.2 == c) ++ [x]
          else l.filter (fun p => p.2 == c)
  | [], _ => by
    by_cases hx : x.2 = c <;> simp [insertByCount, hx]
  | y :: ys, h => by
    unfold insertByCount
    rw [List.pairwise_cons] at h
    by_cases hy : y.2 < x.2
    · rw [if_pos hy]
      by_cases hx : x.2 = c
      · rw [if_pos hx]
        have hall : (y :: ys).filter (fun p => p.2 == c) = [] := by
          rw [List.filter_eq_nil_iff]
          intro p hp
          rcases List.mem_cons.mp hp with rfl | hp
          · simp only [beq_iff_eq]; omega
          · have := h.1 p hp
            simp only [beq_iff_eq]; omega
        rw [List.filter_cons_of_pos (by simp [hx]), hall]
        simp
      · rw [if_neg hx]
        rw [List.filter_cons_of_neg (by simp [hx])]
    · rw [if_neg hy]
      have ih := insertByCount_filter x c ys h.2
      by_cases hyc : y.2 = c
      · rw [List.filter_cons_of_pos (by simp [hyc]),
          List.filter_cons_of_pos (by simp [hyc]), ih]
        by_cases hx : x.2 = c
        · rw [if_pos hx, if_pos hx]
          simp
        · rw [if_neg hx, if_neg hx]
      · rw [List.filter_cons_of_neg (by simp [hyc]),
          List.filter_cons_of_neg (by simp [hyc]), ih]

/-- Helper: the stable sort is a permutation of the counts table. -/
theorem sortByCountDesc_perm (l : List (List Char × Nat)) :
    (sortByCountDesc l).Perm l := by
  suffices h : ∀ (l acc : List (List Char × Nat)),
      (l.foldl (fun acc x => insertByCount x acc) acc).Perm (acc ++ l) by
    simpa using h l []
  intro l
  induction l with
  | nil => intro acc; simp
  | cons x xs ih =>
    intro acc
    rw [List.foldl_cons]
    refine (ih (insertByCount x acc)).trans ?_
    refine (List.Perm.append_right xs (insertByCount_perm x acc)).trans ?_
    simpa using List.perm_middle.symm

/-- Helper: the sort's invariant, used to carry sortedness through the fold. -/
theorem sortByCountDesc_go_sorted (l : List (List Char × Nat)) :
    ∀ acc, List.Pairwise (fun a b => b.2 ≤ a.2) acc →
      List.Pairwise (fun a b => b.2 ≤ a.2)
        (l.foldl (fun acc x => insertByCount x acc) acc) := by
  induction l with
  | nil => intro acc h; exact h
  | cons x xs ih =>
    intro acc h
    rw [List.foldl_cons]
    exact ih _ (insertByCount_sorted x acc h)

/-- Helper: the sorted counts table is descending by count. -/
theorem sortByCountDesc_sorted (l : List (List Char × Nat)) :
    List.Pairwise (fun a b => b.2 ≤ a.2) (sortByCountDesc l) :=
  sortByCountDesc_go_sorted l [] List.Pairwise.nil

/-- Helper (stability): the sort keeps equal-count entries in their original
(first-occurrence) order: filtering either list at any count level gives the
same sequence. -/
theorem sortByCountDesc_filter (l : List (List Char × Nat)) (c : Nat) :
    (sortByCountDesc l).filter (fun p => p.2 == c)
      = l.filter (fun p => p.2 == c) := by
  suffices h : ∀ (l acc : List (List Char × Nat)),
      List.Pairwise (fun a b => b.2 ≤ a.2) acc →
      (l.foldl (fun acc x => insertByCount x acc) acc).filter (fun p => p.2 == c)
        = acc.filter (fun p => p.2 == c) ++ l.filter (fun p => p.2 == c) by
    simpa using h l [] List.Pairwise.nil
  intro l
  induction l with
  | nil => intro acc h; simp
  | cons x xs ih =>
    intro acc h
    rw [List.foldl_cons, ih _ (insertByCount_sorted x acc h),
      insertByCount_filter x c acc h, List.filter_cons]
    by_cases hx : x.2 = c
    · rw [if_pos hx]
      simp [hx]
    · rw [if_neg hx]
      simp [hx]

/-- Helper: one step of association-list lookup, hit. -/
theorem lookup_cons_self {α : Type u} {β : Type v} [BEq α] [LawfulBEq α]
    (k : α) (x : β) (ps : List (α × β)) : ((k, x) :: ps).lookup k = some x := by
  simp [List.lookup]

/-- Helper: one step of association-list lookup, miss. -/
theorem lookup_cons_ne {α : Type u} {β : Type v} [BEq α] [LawfulBEq α]
    (k w : α) (x : β) (ps : List (α × β)) (h : w ≠ k) :
    ((k, x) :: ps).lookup w = ps.lookup w := by
  have hb : (w == k) = false := beq_false_of_ne h
  simp [List.lookup, hb]

/-- Helper: `word_counts[w] += 1` on the key just seen. -/
theorem addCount_lookup_self : ∀ (wc : List (List Char × Nat)) (w : List Char),
    (addCount wc w).lookup w = some ((wc.lookup w).getD 0 + 1)
  | [], w => by simp [addCount, lookup_cons_self]
  | p :: ps, w => by
    unfold addCount
    by_cases h : p.1 = w
    · rw [if_pos h]
      have hp : p = (p.1, p.2) := rfl
      rw [hp, h, lookup_cons_self, lookup_cons_self]
      simp
    · rw [if_neg h]
      have hp : p = (p.1, p.2) := rfl
      rw [hp, lookup_cons_ne _ _ _ _ (fun e => h e.symm),
        lookup_cons_ne _ _ _ _ (fun e => h e.symm), addCount_lookup_self ps w]

/-- Helper: `word_counts[w] += 1` leaves other keys untouched. -/
theorem addCount_lookup_other : ∀ (wc : List (List Char × Nat)) (w v : List Char),
    v ≠ w → (addCount wc w).lookup v = wc.lookup v
  | [], w, v, hvw => by
    unfold addCount
    rw [lookup_cons_ne _ _ _ _ hvw]
  | p :: ps, w, v, hvw => by
    unfold addCount
    by_cases h : p.1 = w
    · rw [if_pos h]
      have hv : v ≠ p.1 := by rw [h]; exact hvw
      have hp : p = (p.1, p.2) := rfl
      rw [hp, lookup_cons_ne _ _ _ _ hv, lookup_cons_ne _ _ _ _ hv]
    · rw [if_neg h]
      by_cases hv : v = p.1
      · have hp : p = (p.1, p.2) := rfl
        rw [hp, hv, lookup_cons_self, lookup_cons_self]
      · have hp : p = (p.1, p.2) := rfl
        rw [hp, lookup_cons_ne _ _ _ _ hv, lookup_cons_ne _ _ _ _ hv,
          addCount_lookup_other ps w v hvw]

/-- Helper: a key is absent from the counts table iff its lookup is `none`. -/
theorem lookup_none_iff_not_key : ∀ (wc : List (List Char × Nat)) (v : List Char),
    wc.lookup v = none ↔ ¬ v ∈ wc.map Prod.fst
  | [], v => by simp [List.lookup]
  | p :: ps, v => by
    by_cases h : v = p.1
    · have hp : p = (p.1, p.2) := rfl
      rw [hp, h, lookup_cons_self]
      simp
    · have hp : p = (p.1, p.2) := rfl
      rw [hp, lookup_cons_ne _ _ _ _ h]
      simp only [List.map_cons, List.mem_cons, lookup_none_iff_not_key ps v]
      constructor
      · intro hn hor
        rcases hor with rfl | hm
        · exact h rfl
        · exact hn hm
      · intro hn hm
        exact hn (Or.inr hm)

/-- Helper: the keys of the counts table after an update: unchanged for a
seen key, appended at the back for a fresh one. -/
theorem addCount_keys : ∀ (wc : List (List Char × Nat)) (w : List Char),
    (addCount wc w).map Prod.fst
      = if wc.lookup w = none then wc.map Prod.fst ++ [w] else wc.map Prod.fst
  | [], w => by simp [addCount, List.lookup]
  | p :: ps, w => by
    unfold addCount
    by_cases h : p.1 = w
    · rw [if_pos h]
      have hp : p = (p.1, p.2) := rfl
      rw [hp, h, show List.lookup w ((w, p.2) :: ps) = some p.2 from
        lookup_cons_self w p.2 ps]
      simp
    · rw [if_neg h]
      have hp : p = (p.1, p.2) := rfl
      rw [hp, lookup_cons_ne _ _ _ _ (fun e => h e.symm)]
      simp only [List.map_cons, addCount_keys ps w]
      by_cases hn : ps.lookup w = none
      · simp [hn]
      · simp [hn]

/-- Helper: counting updates keep the keys distinct. -/
theorem addCount_nodup (wc : List (List Char × Nat)) (w : List Char)
    (h : (wc.map Prod.fst).Nodup) : ((addCount wc w).map Prod.fst).Nodup := by
  rw [addCount_keys]
  by_cases hn : wc.lookup w = none
  · rw [if_pos hn]
    have hw : ¬ w ∈ wc.map Prod.fst := (lookup_none_iff_not_key wc w).mp hn
    simp [List.nodup_append, h, hw]
  · rwa [if_neg hn]

/-- Helper: folding the counter over a token list adds each token's number of
occurrences. -/
theorem foldl_addCount_cnt : ∀ (toks : List (List Char))
    (wc : List (List Char × Nat)) (w : List Char),
    ((toks.foldl addCount wc).lookup w).getD 0
      = (wc.lookup w).getD 0 + toks.count w
  | [], wc, w => by simp
  | t :: ts, wc, w => by
    rw [List.foldl_cons, foldl_addCount_cnt ts (addCount wc t) w]
    by_cases h : t = w
    · subst h
      rw [addCount_lookup_self]
      simp [List.count_cons]
      omega
    · rw [addCount_lookup_other wc t w (Ne.symm h)]
      have hb : (t == w) = false := beq_false_of_ne h
      simp [List.count_cons, hb]

/-- Helper: a key is absent after the fold iff it was absent before and never
occurs in the tokens. -/
theorem foldl_addCount_none : ∀ (toks : List (List Char))
    (wc : List (List Char × Nat)) (w : List Char),
    (toks.foldl addCount wc).lookup w = none ↔
      wc.lookup w = none ∧ ¬ w ∈ toks
  | [], wc, w => by simp
  | t :: ts, wc, w => by
    rw [List.foldl_cons, foldl_addCount_none ts (addCount wc t) w]
    by_cases h : t = w
    · subst h
      rw [addCount_lookup_self]
      simp
    · rw [addCount_lookup_other wc t w (Ne.symm h)]
      simp [h, Ne.symm h]

/-- Helper: the fold keeps keys distinct. -/
theorem foldl_addCount_nodup : ∀ (toks : List (List Char))
    (wc : List (List Char × Nat)),
    (wc.map Prod.fst).Nodup → ((toks.foldl addCount wc).map Prod.fst).Nodup
  | [], wc, h => h
  | t :: ts, wc, h => by
    rw [List.foldl_cons]
    exact foldl_addCount_nodup ts (addCount wc t) (addCount_nodup wc t h)

/-- Helper: counting text by text is counting the concatenated token list. -/
theorem wordCounts_eq_foldl (texts : List (List Char)) :
    wordCounts texts = (allTokens texts).foldl addCount [] := by
  suffices h : ∀ (texts : List (List Char)) (wc : List (List Char × Nat)),
      texts.foldl (fun wc t => (textTokens t).foldl addCount wc) wc
        = ((texts.map textTokens).flatten).foldl addCount wc by
    simpa [wordCounts, allTokens] using h texts []
  intro texts
  induction texts with
  | nil => intro wc; simp
  | cons t ts ih => intro wc; simp [List.foldl_append, ih]

/-- C4 (amended): `tokenize` assigns ids `1, 2, ...` to exactly the distinct
whitespace-delimited tokens of the corpus in order of **decreasing occurrence
count**, ties broken by first occurrence, with id 0 left unassigned (reserved
for padding): the ids of `word_index` are `1..V`; the sorted table is a
permutation of the (first-occurrence-ordered, duplicate-free) counts table,
descending by count, and filtering either table at any count level yields the
same order; and the counts table records exactly the occurrence counts of the
corpus tokens. -/
theorem tokenizer_freq_order (texts : List (List Char)) :
    (word_index texts).map Prod.snd = List.range' 1 (wordCounts texts).length ∧
    (∀ p ∈ word_index texts, 1 ≤ p.2) ∧
    (sortByCountDesc (wordCounts texts)).Perm (wordCounts texts) ∧
    List.Pairwise (fun a b => b.2 ≤ a.2) (sortByCountDesc (wordCounts texts)) ∧
    (∀ c, (sortByCountDesc (wordCounts texts)).filter (fun p => p.2 == c)
      = (wordCounts texts).filter (fun p => p.2 == c)) ∧
    ((wordCounts texts).map Prod.fst).Nodup ∧
    (∀ w, ((wordCounts texts).lookup w).getD 0 = (allTokens texts).count w) ∧
    (∀ w, (wordCounts texts).lookup w = none ↔ ¬ w ∈ allTokens texts) := by
  have hlen : ((sortByCountDesc (wordCounts texts)).map Prod.fst).length
      = (wordCounts texts).length := by
    rw [List.length_map, (sortByCountDesc_perm (wordCounts texts)).length_eq]
  refine ⟨?_, word_index_ids_pos texts, sortByCountDesc_perm _,
    sortByCountDesc_sorted _, sortByCountDesc_filter _, ?_, ?_, ?_⟩
  · unfold word_index
    rw [List.map_snd_zip _ _ (by rw [List.length_range'])]
    rw [hlen]
  · rw [wordCounts_eq_foldl]
    exact foldl_addCount_nodup (allTokens texts) [] (by simp)
  · intro w
    rw [wordCounts_eq_foldl, foldl_addCount_cnt]
    simp [List.lookup]
  · intro w
    rw [wordCounts_eq_foldl, foldl_addCount_none]
    simp [List.lookup]

/-- Helper: the decode loop performs at most `fuel` decoder invocations. -/
theorem decodeLoop_pids_length {H : Type u} (predict : Nat → H → Nat × H)
    (iw : Nat → Option (List Char)) :
    ∀ (fuel decInput : Nat) (h : H) (acc : List (List Char)) (pids : List Nat),
      (decodeLoop predict iw fuel decInput h acc pids).pids.length
        ≤ pids.length + fuel
  | 0, _, _, _, _ => by simp [decodeLoop]
  | fuel + 1, decInput, h, acc, pids => by
    rw [decodeLoop]
    cases hiw : iw (predict decInput h).1 with
    | none => simp
    | some w =>
      by_cases hw : w = "<end>".data
      · simp [hw]
      · simp only [hw, if_false]
        have ih := decodeLoop_pids_length predict iw fuel (predict decInput h).1
          (predict decInput h).2 (acc ++ [w]) (pids ++ [(predict decInput h).1])
        simp only [List.length_append, List.length_cons, List.length_nil] at ih ⊢
        omega

/-- Helper: a successful decode never emits the end marker. -/
theorem decodeLoop_no_end {H : Type u} (predict : Nat → H → Nat × H)
    (iw : Nat → Option (List Char)) :
    ∀ (fuel decInput : Nat) (h : H) (acc toks : List (List Char))
      (pids : List Nat),
      (decodeLoop predict iw fuel decInput h acc pids).result = .ok toks →
      ¬ "<end>".data ∈ acc → ¬ "<end>".data ∈ toks
  | 0, _, _, acc, toks, pids, hok, hacc => by
    simp only [decodeLoop, Except.ok.injEq] at hok
    rwa [← hok]
  | fuel + 1, decInput, h, acc, toks, pids, hok, hacc => by
    rw [decodeLoop] at hok
    cases hiw : iw (predict decInput h).1 with
    | none => rw [hiw] at hok; exact Except.noConfusion hok
    | some w =>
      rw [hiw] at hok
      by_cases hw : w = "<end>".data
      · simp only [hw, if_true, Except.ok.injEq] at hok
        rwa [← hok]
      · simp only [hw, if_false] at hok
        refine decodeLoop_no_end predict iw fuel _ _ _ toks _ hok ?_
        intro hmem
        rcases List.mem_append.mp hmem with hmem | hmem
        · exact hacc hmem
        · exact hw (List.mem_singleton.mp hmem).symm

/-- Helper: in a successful decode, every recorded argmax id has an
`index_word` entry. -/
theorem decodeLoop_ok_pids {H : Type u} (predict : Nat → H → Nat × H)
    (iw : Nat → Option (List Char)) :
    ∀ (fuel decInput : Nat) (h : H) (acc toks : List (List Char))
      (pids : List Nat),
      (decodeLoop predict iw fuel decInput h acc pids).result = .ok toks →
      ∀ pid ∈ (decodeLoop predict iw fuel decInput h acc pids).pids,
        pid ∈ pids ∨ iw pid ≠ none
  | 0, _, _, acc, toks, pids, _, pid, hmem => by
    simp only [decodeLoop] at hmem
    exact Or.inl hmem
  | fuel + 1, decInput, h, acc, toks, pids, hok, pid, hmem => by
    rw [decodeLoop] at hok hmem
    cases hiw : iw (predict decInput h).1 with
    | none => rw [hiw] at hok; exact Except.noConfusion hok
    | some w =>
      rw [hiw] at hok hmem
      by_cases hw : w = "<end>".data
      · simp only [hw, if_true] at hok hmem
        rcases List.mem_append.mp hmem with hmem | hmem
        · exact Or.inl hmem
        · right
          rw [(List.mem_singleton.mp hmem), hiw]
          exact Option.noConfusion
      · simp only [hw, if_false] at hok hmem
        rcases decodeLoop_ok_pids predict iw fuel _ _ _ toks _ hok pid hmem
          with hin | hnn
        · rcases List.mem_append.mp hin with hin | hin
          · exact Or.inl hin
          · right
            rw [(List.mem_singleton.mp hin), hiw]
            exact Option.noConfusion
        · exact Or.inr hnn

/-- C3: For every input sentence, `evaluate` performs at most `maxLenTarg`
decoder steps (the recorded argmax trace is never longer), and whenever it
returns a translation, the emitted tokens never include the end marker. -/
theorem greedy_decode_bounded {H : Type u} (inpWI targWI : List Char → Option Nat)
    (iw : Nat → Option (List Char)) (encode : List Nat → H)
    (predict : Nat → H → Nat × H) (maxLenInp maxLenTarg : Nat) (s : String) :
    (evaluate inpWI targWI iw encode predict maxLenInp maxLenTarg s).pids.length
        ≤ maxLenTarg ∧
    ∀ toks,
      (evaluate inpWI targWI iw encode predict maxLenInp maxLenTarg s).result
          = .ok toks →
      ¬ "<end>".data ∈ toks := by
  unfold evaluate
  cases hla : lookupAll inpWI (splitSp (markL (coreL s.data))) with
  | none => exact ⟨by simp, by intro toks h; exact Except.noConfusion h⟩
  | some inputs =>
    cases hst : targWI "<start>".data with
    | none => exact ⟨by simp, by intro toks h; exact Except.noConfusion h⟩
    | some startId =>
      constructor
      · simpa using decodeLoop_pids_length predict iw maxLenTarg startId
          (encode (padPost maxLenInp inputs)) [] []
      · intro toks h
        exact decodeLoop_no_end predict iw maxLenTarg startId _ [] toks [] h
          (by simp)

/-- Witness for C3 on a concrete vocabulary where decoding runs out the
length bound. -/
theorem greedy_decode_bounded_witness :
    (evaluate (H := Nat) (fun _ => some 1) (fun _ => some 1)
        (fun i => if i == 1 then some "x".data else none) (fun _ => 0)
        (fun _ _ => (1, 0)) 5 2 "hi").result = .ok ["x".data, "x".data] ∧
    ¬ "<end>".data ∈ ["x".data, "x".data] := by
  refine ⟨rfl, ?_⟩
  exact (greedy_decode_bounded (H := Nat) (fun _ => some 1) (fun _ => some 1)
    (fun i => if i == 1 then some "x".data else none) (fun _ => 0)
    (fun _ _ => (1, 0)) 5 2 "hi").2 ["x".data, "x".data] rfl

/-- Helper: the padding id 0 has no `index_word` entry. -/
theorem index_word_zero_none (texts : List (List Char)) :
    index_word texts 0 = none := by
  unfold index_word
  rw [List.find?_eq_none.mpr]
  · rfl
  · intro p hp
    have := word_index_ids_pos texts p hp
    simp only [beq_iff_eq]
    omega

/-- C9: If the argmax at any reached greedy decoding step is the padding id 0
(which has no `index_word` entry), `evaluate` raises a lookup error instead
of returning a translation: equivalently, whenever `evaluate` returns a
translation, no recorded decoding step predicted id 0. -/
theorem argmax_zero_lookup_error {H : Type u} (texts : List (List Char))
    (inpWI targWI : List Char → Option Nat) (encode : List Nat → H)
    (predict : Nat → H → Nat × H) (maxLenInp maxLenTarg : Nat) (s : String)
    (toks : List (List Char))
    (hok : (evaluate inpWI targWI (index_word texts) encode predict
        maxLenInp maxLenTarg s).result = .ok toks) :
    index_word texts 0 = none ∧
    ¬ 0 ∈ (evaluate inpWI targWI (index_word texts) encode predict
        maxLenInp maxLenTarg s).pids := by
  refine ⟨index_word_zero_none texts, ?_⟩
  intro hmem
  unfold evaluate at hok hmem
  cases hla : lookupAll inpWI (splitSp (markL (coreL s.data))) with
  | none => rw [hla] at hok; exact Except.noConfusion hok
  | some inputs =>
    rw [hla] at hok hmem
    cases hst : targWI "<start>".data with
    | none => rw [hst] at hok; exact Except.noConfusion hok
    | some startId =>
      rw [hst] at hok hmem
      rcases decodeLoop_ok_pids predict (index_word texts) maxLenTarg startId
        (encode (padPost maxLenInp inputs)) [] toks [] hok 0 hmem with hin | hnn
      · exact (List.not_mem_nil 0) hin
      · exact hnn (index_word_zero_none texts)

/-- Witness for C9 on a concrete vocabulary and a decode that returns. -/
theorem argmax_zero_lookup_error_witness :
    index_word ["a b".data] 0 = none ∧
    ¬ 0 ∈ (evaluate (H := Nat) (fun _ => some 1) (fun _ => some 1)
        (index_word ["a b".data]) (fun _ => 0) (fun _ _ => (1, 0))
        5 2 "hi").pids :=
  argmax_zero_lookup_error (H := Nat) ["a b".data] (fun _ => some 1)
    (fun _ => some 1) (fun _ => 0) (fun _ _ => (1, 0)) 5 2 "hi"
    ["a".data, "a".data] rfl

/-- Helper: the id lookup of the input sentence fails as soon as one token is
unknown. -/
theorem lookupAll_none (wi : List Char → Option Nat) :
    ∀ (ts : List (List Char)) (t : List Char), t ∈ ts → wi t = none →
      lookupAll wi ts = none
  | [], t, ht, _ => absurd ht (List.not_mem_nil t)
  | u :: us, t, ht, hnone => by
    unfold lookupAll
    rcases List.mem_cons.mp ht with rfl | ht
    · rw [hnone]
    · rw [lookupAll_none wi us t ht hnone]
      cases wi u <;> rfl

/-- C7: For every input sentence whose preprocessed form contains a token
outside the source-language vocabulary, `evaluate` signals a lookup error
(the `KeyError` of the id comprehension) rather than returning a
translation. -/
theorem unknown_token_error {H : Type u} (inpWI targWI : List Char → Option Nat)
    (iw : Nat → Option (List Char)) (encode : List Nat → H)
    (predict : Nat → H → Nat × H) (maxLenInp maxLenTarg : Nat) (s : String)
    (t : List Char) (ht : t ∈ splitSp (preprocess_sentence s).data)
    (hnone : inpWI t = none) :
    (evaluate inpWI targWI iw encode predict maxLenInp maxLenTarg s).result
      = .error () := by
  unfold evaluate
  have hd : (preprocess_sentence s).data = markL (coreL s.data) := rfl
  rw [hd] at ht
  rw [lookupAll_none inpWI _ t ht hnone]

/-- Witness for C7: the token `hi` is missing from the vocabulary. -/
theorem unknown_token_error_witness :
    (evaluate (H := Nat)
      (fun w => if w = "<start>".data then some 1 else none) (fun _ => some 1)
      (fun _ => none) (fun _ => 0) (fun _ _ => (1, 0)) 5 2 "hi").result
      = .error () :=
  unknown_token_error (H := Nat)
    (fun w => if w = "<start>".data then some 1 else none) (fun _ => some 1)
    (fun _ => none) (fun _ => 0) (fun _ _ => (1, 0)) 5 2 "hi"
    "hi".data (by decide) (by decide)

set_option maxRecDepth 4000 in
/-- Witness for C10 on a concrete corpus of 130 pairs (26 held out, 104 in
the training split, one full batch of 64 per epoch). -/
theorem train_split_batches_witness :
    ((List.range 130).drop (nTest 130)).length = 4 * 130 / 5 ∧
    (epochBatches ((List.range 130).drop (nTest 130)).length
      ((List.range 130).drop (nTest 130))).length = 4 * 130 / 5 / 64 := by
  have h := train_split_batches (List.range 130) (List.range 130)
    ((List.range 130).drop (nTest 130)) (List.Perm.refl _) (List.Perm.refl _)
  exact ⟨h.1, h.2.1⟩

/-! ### The preprocessing idempotence question (C6) -/

/-- Helper: one collapse step on a run character with the run already open. -/
theorem collapseRuns_cons_pos_true (p : Char → Bool) (c : Char) (cs : List Char)
    (h : p c = true) :
    collapseRuns p true (c :: cs) = collapseRuns p true cs := by
  rw [collapseRuns, h]
  simp

/-- Helper: one collapse step on a run character opening a run. -/
theorem collapseRuns_cons_pos_false (p : Char → Bool) (c : Char) (cs : List Char)
    (h : p c = true) :
    collapseRuns p false (c :: cs) = ' ' :: collapseRuns p true cs := by
  rw [collapseRuns, h]
  simp

/-- Helper: one collapse step on a kept character. -/
theorem collapseRuns_cons_neg (p : Char → Bool) (b : Bool) (c : Char) (cs : List Char)
    (h : p c = false) :
    collapseRuns p b (c :: cs) = c :: collapseRuns p false cs := by
  rw [collapseRuns, h]
  simp

/-- Helper: `collapseRuns` passes a clean prefix through unchanged (the flag
may be open only when the prefix starts with a kept character). -/
theorem collapseRuns_clean (p : Char → Bool) :
    ∀ (x m : List Char) (flag : Bool), cleanFor p x = true →
      (flag = true → headNotP p x = true) →
      collapseRuns p flag (x ++ m) = x ++ collapseRuns p false m
  | [], m, flag, _, hflag => by
    cases flag with
    | false => rfl
    | true => simp [headNotP] at hflag
  | [c], m, flag, hclean, hflag => by
    have hc : p c = false := by simpa [cleanFor] using hclean
    rw [show ([c] ++ m) = c :: m from rfl, collapseRuns_cons_neg p flag c m hc]
    rfl
  | c :: d :: cs, m, flag, hclean, hflag => by
    have hclean2 : (if p c then c == ' ' && !(p d) else true) = true
        ∧ cleanFor p (d :: cs) = true := by
      simpa [cleanFor, Bool.and_eq_true] using hclean
    by_cases hc : p c = true
    · have hcd : c = ' ' ∧ p d = false := by
        have h1 := hclean2.1
        rw [if_pos hc] at h1
        simpa [Bool.and_eq_true] using h1
      have hflag2 : flag = false := by
        cases flag with
        | false => rfl
        | true =>
          have h2 := hflag rfl
          simp [headNotP, hc] at h2
      subst hflag2
      rw [show ((c :: d :: cs) ++ m) = c :: ((d :: cs) ++ m) from rfl,
        collapseRuns_cons_pos_false p c _ hc,
        collapseRuns_clean p (d :: cs) m true hclean2.2
          (fun _ => by simp [headNotP, hcd.2]),
        hcd.1]
      rfl
    · have hc2 : p c = false := by revert hc; cases p c <;> simp
      rw [show ((c :: d :: cs) ++ m) = c :: ((d :: cs) ++ m) from rfl,
        collapseRuns_cons_neg p flag c _ hc2,
        collapseRuns_clean p (d :: cs) m false hclean2.2 (by simp)]
      rfl

/-- Helper: characters with distinct codepoints are distinct. -/
theorem beq_false_of_toNat_ne {c d : Char} (h : c.toNat ≠ d.toNat) :
    (c == d) = false :=
  beq_false_of_ne (fun e => h (congrArg Char.toNat e))

/-- Helper: lookup misses every table whose keys all have large codepoints. -/
theorem lookup_none_of_small {β : Type v} : ∀ (tbl : List (Char × β)) (c : Char),
    (∀ k ∈ tbl.map Prod.fst, 191 < k.toNat) → c.toNat < 191 →
    tbl.lookup c = none
  | [], _, _, _ => rfl
  | (k, x) :: ps, c, hk, hc => by
    have hkk : 191 < k.toNat := hk k (by simp)
    rw [lookup_cons_ne k c x ps (fun e => by rw [e] at hc; omega)]
    exact lookup_none_of_small ps c (fun j hj => hk j (by simp [hj])) hc

/-- Helper: a plain character is a lowercase ASCII letter or the space. -/
theorem plainLS_cases {c : Char} (h : plainLS c = true) :
    (97 ≤ c.toNat ∧ c.toNat ≤ 122) ∨ c = ' ' := by
  simpa only [plainLS, Bool.or_eq_true, Bool.and_eq_true, decide_eq_true_eq,
    beq_iff_eq] using h

/-- Helper: plain characters have small codepoints. -/
theorem plainLS_toNat_lt {c : Char} (h : plainLS c = true) : c.toNat < 191 := by
  rcases plainLS_cases h with h1 | rfl
  · omega
  · decide

/-- Helper: lowercasing fixes plain characters. -/
theorem pyLower_plain {c : Char} (h : plainLS c = true) : pyLower c = c := by
  unfold pyLower
  rw [lookup_none_of_small lowerTable c (by decide) (plainLS_toNat_lt h)]
  rw [if_neg]
  intro hcontra
  simp only [Bool.and_eq_true, decide_eq_true_eq] at hcontra
  rcases plainLS_cases h with h1 | rfl
  · omega
  · have h32 : (' ').toNat = 32 := rfl
    omega

/-- Helper: plain characters have no NFD decomposition. -/
theorem nfd_plain {c : Char} (h : plainLS c = true) : nfd c = [c] := by
  unfold nfd
  rw [lookup_none_of_small nfdTable c (by decide) (plainLS_toNat_lt h)]
  rfl

/-- Helper: plain characters are not combining marks. -/
theorem isMn_plain {c : Char} (h : plainLS c = true) : isMn c = false := by
  have hlt := plainLS_toNat_lt h
  have h1 : (decide (768 ≤ c.toNat)) = false := decide_eq_false (by omega)
  simp [isMn, h1]

/-- Helper: plain characters are not punctuation. -/
theorem isPunct_plain {c : Char} (h : plainLS c = true) : isPunct c = false := by
  have e1 : ('?').toNat = 63 := rfl
  have e2 : ('.').toNat = 46 := rfl
  have e3 : ('!').toNat = 33 := rfl
  have e4 : (',').toNat = 44 := rfl
  have e5 : ('¿').toNat = 191 := rfl
  have hsp : (' ').toNat = 32 := rfl
  have hlt : c.toNat < 191 ∧ 32 ≤ c.toNat := by
    rcases plainLS_cases h with h1 | rfl
    · omega
    · omega
  have hc : c.toNat ∉ ([63, 46, 33, 44, 191] : List Nat) := by
    rcases plainLS_cases h with h1 | rfl
    · simp
      omega
    · rw [hsp]
      decide
  simp only [List.mem_cons, List.not_mem_nil, or_false, not_or] at hc
  unfold isPunct
  rw [beq_false_of_toNat_ne (by omega), beq_false_of_toNat_ne (by omega),
    beq_false_of_toNat_ne (by omega), beq_false_of_toNat_ne (by omega),
    beq_false_of_toNat_ne (by omega)]
  rfl

/-- Helper: mapping a function that fixes every element is the identity. -/
theorem map_id_of {α : Type u} (f : α → α) :
    ∀ (l : List α), (∀ c ∈ l, f c = c) → l.map f = l
  | [], _ => rfl
  | c :: cs, h => by
    rw [List.map_cons, h c (by simp),
      map_id_of f cs (fun d hd => h d (by simp [hd]))]

/-- Helper: `unicode_to_ascii` distributes over append. -/
theorem u2a_append (a b : List Char) :
    unicode_to_ascii (a ++ b) = unicode_to_ascii a ++ unicode_to_ascii b := by
  unfold unicode_to_ascii
  rw [List.map_append, List.flatten_append, List.filter_append]

/-- Helper: `sub1` distributes over append. -/
theorem sub1_append (a b : List Char) : sub1 (a ++ b) = sub1 a ++ sub1 b := by
  unfold sub1
  rw [List.map_append, List.flatten_append]

/-- Helper: `unicode_to_ascii` fixes plain strings. -/
theorem u2a_plain : ∀ (x : List Char), (∀ c ∈ x, plainLS c = true) →
    unicode_to_ascii x = x
  | [], _ => rfl
  | c :: cs, h => by
    have hc := h c (List.mem_cons_self c cs)
    show (((c :: cs).map nfd).flatten).filter (fun c => !(isMn c)) = c :: cs
    rw [List.map_cons, List.flatten_cons, List.filter_append, nfd_plain hc,
      show List.filter (fun c => !(isMn c)) [c] = [c] from by
        simp [List.filter, isMn_plain hc]]
    show [c] ++ unicode_to_ascii cs = c :: cs
    rw [u2a_plain cs (fun d hd => h d (List.mem_cons_of_mem c hd))]
    rfl

/-- Helper: `sub1` fixes punctuation-free strings. -/
theorem sub1_plain : ∀ (x : List Char), (∀ c ∈ x, isPunct c = false) →
    sub1 x = x
  | [], _ => rfl
  | c :: cs, h => by
    have hc := h c (List.mem_cons_self c cs)
    show (((c :: cs).map fun c =>
      if isPunct c then [' ', c, ' '] else [c]).flatten) = c :: cs
    rw [List.map_cons, List.flatten_cons, if_neg (by simp [hc])]
    show [c] ++ sub1 cs = c :: cs
    rw [sub1_plain cs (fun d hd => h d (List.mem_cons_of_mem c hd))]
    rfl

/-- Helper: trailing strip is the identity when the last character is not
whitespace. -/
theorem stripEnd_no_ws_end (ys : List Char) (c : Char) (h : isWs c = false) :
    stripEnd (ys ++ [c]) = ys ++ [c] := by
  unfold stripEnd
  rw [show (ys ++ [c]).reverse = c :: ys.reverse from by simp,
    List.dropWhile_cons_of_neg (by simp [h])]
  simp

/-- Helper: trailing strip skips over a prefix ending in a non-whitespace
character. -/
theorem stripEnd_append (a b ys : List Char) (c : Char)
    (ha : a = ys ++ [c]) (hc : isWs c = false) :
    stripEnd (a ++ b) = a ++ stripEnd b := by
  subst ha
  unfold stripEnd
  rw [List.reverse_append, List.dropWhile_append]
  by_cases hb : (b.reverse.dropWhile isWs).isEmpty = true
  · rw [if_pos hb]
    have hbe : b.reverse.dropWhile isWs = [] := by
      simpa [List.isEmpty_iff] using hb
    rw [hbe, show (ys ++ [c]).reverse = c :: ys.reverse from by simp,
      List.dropWhile_cons_of_neg (by simp [hc])]
    simp
  · rw [if_neg hb]
    rw [List.reverse_append]
    simp

/-- Helper: strip is the identity when both ends are not whitespace. -/
theorem pyStrip_eq_self (l : List Char) (c1 : Char) (t : List Char)
    (hl : l = c1 :: t) (h1 : isWs c1 = false) (ys : List Char) (c2 : Char)
    (hl2 : l = ys ++ [c2]) (h2 : isWs c2 = false) : pyStrip l = l := by
  unfold pyStrip
  rw [hl, List.dropWhile_cons_of_neg (by simp [h1]), ← hl, hl2,
    stripEnd_no_ws_end ys c2 h2]

/-- Helper: strip is the identity on a marker-wrapped string. -/
theorem pyStrip_markL (z : List Char) : pyStrip (markL z) = markL z := by
  have hl2 : markL z = ("<start> ".data ++ z ++ " <end".data) ++ ['>'] := by
    unfold markL
    rw [show " <end>".data = " <end".data ++ ['>'] from rfl, ← List.append_assoc]
  exact pyStrip_eq_self (markL z) '<' ("start> ".data ++ z ++ " <end>".data) rfl
    (by decide) ("<start> ".data ++ z ++ " <end".data) '>' hl2 (by decide)

/-- Helper: lowercasing acts inside the markers. -/
theorem low_markL (z : List Char) :
    (markL z).map pyLower = markL (z.map pyLower) := by
  unfold markL
  rw [List.map_append, List.map_append,
    show "<start> ".data.map pyLower = "<start> ".data from by decide,
    show " <end>".data.map pyLower = " <end>".data from by decide]

/-- Helper: accent removal acts inside the markers. -/
theorem u2a_markL (z : List Char) :
    unicode_to_ascii (markL z) = markL (unicode_to_ascii z) := by
  unfold markL
  rw [u2a_append, u2a_append,
    show unicode_to_ascii "<start> ".data = "<start> ".data from by decide,
    show unicode_to_ascii " <end>".data = " <end>".data from by decide]

/-- Helper: punctuation spacing acts inside the markers. -/
theorem sub1_markL (z : List Char) : sub1 (markL z) = markL (sub1 z) := by
  unfold markL
  rw [sub1_append, sub1_append,
    show sub1 "<start> ".data = "<start> ".data from by decide,
    show sub1 " <end>".data = " <end>".data from by decide]

/-- Helper: every pumping word starts with `s`. -/
theorem xword_head : ∀ n, ∃ t, xword n = 's' :: t
  | 0 => ⟨"tart".data, rfl⟩
  | n + 1 => ⟨"tart ".data ++ xword n, rfl⟩

/-- Helper: every pumping word ends with `t`. -/
theorem xword_snoc : ∀ n, ∃ ys, xword n = ys ++ ['t']
  | 0 => ⟨"star".data, by decide⟩
  | n + 1 => by
    obtain ⟨ys, hy⟩ := xword_snoc n
    exact ⟨"start ".data ++ ys, by rw [xword, hy, List.append_assoc]⟩

/-- Helper: pumping words consist of plain characters. -/
theorem xword_plain : ∀ n, ∀ c ∈ xword n, plainLS c = true
  | 0 => by decide
  | n + 1 => by
    intro c hc
    rw [xword] at hc
    rcases List.mem_append.mp hc with hc | hc
    · exact (by decide : ∀ c ∈ "start ".data, plainLS c = true) c hc
    · exact xword_plain n c hc

/-- Helper: the pumping words grow linearly. -/
theorem xword_length : ∀ n, (xword n).length = 6 * n + 5
  | 0 => rfl
  | n + 1 => by
    rw [xword, List.length_append, xword_length n]
    have h6 : "start ".data.length = 6 := rfl
    omega

/-- Helper: prepending `start ` preserves cleanness for a run predicate that
keeps the letters of `start`. -/
theorem cleanFor_start_space (p : Char → Bool) (hs : p 's' = false)
    (ht : p 't' = false) (ha : p 'a' = false) (hr : p 'r' = false)
    (c : Char) (cs : List Char) (hc : p c = false)
    (h1 : cleanFor p (c :: cs) = true) :
    cleanFor p ("start ".data ++ (c :: cs)) = true := by
  show cleanFor p ('s' :: 't' :: 'a' :: 'r' :: 't' :: ' ' :: (c :: cs)) = true
  cases hps : p ' ' with
  | false => simp [cleanFor, hs, ht, ha, hr, hps, hc, h1]
  | true => simp [cleanFor, hs, ht, ha, hr, hps, hc, h1]

/-- Helper: pumping words are clean for any run predicate keeping the letters
of `start`. -/
theorem xword_clean (p : Char → Bool) (hs : p 's' = false) (ht : p 't' = false)
    (ha : p 'a' = false) (hr : p 'r' = false) :
    ∀ n, cleanFor p (xword n) = true
  | 0 => by
    show cleanFor p ('s' :: 't' :: 'a' :: 'r' :: 't' :: []) = true
    simp [cleanFor, hs, ht, ha, hr]
  | n + 1 => by
    obtain ⟨t0, hhead⟩ := xword_head n
    have h1 := xword_clean p hs ht ha hr n
    rw [xword, hhead]
    rw [hhead] at h1
    exact cleanFor_start_space p hs ht ha hr 's' t0 hs h1

/-- Helper (central trace): the second preprocessing pass turns the
marker-wrapped string `<start> x·r <end>` into `start x·R`: the brackets of
the start marker are erased and the word `start` survives, followed by the
clean prefix `x`. -/
theorem coreL_markL_clean (x r : List Char)
    (hplain : ∀ c ∈ x, plainLS c = true)
    (hc2 : cleanFor p2 x = true) (hc3 : cleanFor p3 x = true)
    (t0 : List Char) (hhead : x = 's' :: t0)
    (ys : List Char) (hlast : x = ys ++ ['t']) :
    ∃ R, coreL (markL (x ++ r)) = "start ".data ++ x ++ R := by
  unfold coreL
  rw [low_markL, List.map_append,
    map_id_of pyLower x (fun c hc => pyLower_plain (hplain c hc)),
    pyStrip_markL, u2a_markL, u2a_append, u2a_plain x hplain,
    sub1_markL, sub1_append,
    sub1_plain x (fun c hc => isPunct_plain (hplain c hc))]
  have e1 : markL (x ++ sub1 (unicode_to_ascii (List.map pyLower r)))
      = "<start>".data ++ (' ' ::
        (x ++ (sub1 (unicode_to_ascii (List.map pyLower r)) ++ " <end>".data))) := by
    unfold markL
    rw [show "<start> ".data = "<start>".data ++ [' '] from rfl]
    simp [List.append_assoc]
  rw [e1, collapseRuns_clean p2 "<start>".data _ false (by decide) (by simp),
    collapseRuns_cons_pos_false p2 ' ' _ (by decide),
    collapseRuns_clean p2 x _ true hc2 (fun _ => by rw [hhead]; rfl)]
  rw [show ("<start>".data ++ (' ' :: (x ++ collapseRuns p2 false
        (sub1 (unicode_to_ascii (List.map pyLower r)) ++ " <end>".data))))
      = '<' :: 's' :: 't' :: 'a' :: 'r' :: 't' :: '>' :: ' ' :: (x ++ collapseRuns p2 false
        (sub1 (unicode_to_ascii (List.map pyLower r)) ++ " <end>".data)) from rfl,
    collapseRuns_cons_pos_false p3 '<' _ (by decide),
    collapseRuns_cons_neg p3 true 's' _ (by decide),
    collapseRuns_cons_neg p3 false 't' _ (by decide),
    collapseRuns_cons_neg p3 false 'a' _ (by decide),
    collapseRuns_cons_neg p3 false 'r' _ (by decide),
    collapseRuns_cons_neg p3 false 't' _ (by decide),
    collapseRuns_cons_pos_false p3 '>' _ (by decide),
    collapseRuns_cons_pos_true p3 ' ' _ (by decide),
    collapseRuns_clean p3 x _ true hc3 (fun _ => by rw [hhead]; rfl)]
  unfold pyStrip
  rw [List.dropWhile_cons_of_pos (show isWs ' ' = true from by decide),
    List.dropWhile_cons_of_neg (show ¬ isWs 's' = true from by decide)]
  rw [show ('s' :: 't' :: 'a' :: 'r' :: 't' :: ' ' :: (x ++ collapseRuns p3 false
        (collapseRuns p2 false
          (sub1 (unicode_to_ascii (List.map pyLower r)) ++ " <end>".data))))
      = ("start ".data ++ x) ++ collapseRuns p3 false (collapseRuns p2 false
        (sub1 (unicode_to_ascii (List.map pyLower r)) ++ " <end>".data)) from by
      rw [hhead]
      rfl,
    stripEnd_append ("start ".data ++ x) _ ("start ".data ++ ys) 't'
      (by rw [hlast, List.append_assoc]) (by decide)]
  exact ⟨_, rfl⟩

/-- Helper (base trace): whatever the argument, the second pass applied to a
marker-wrapped string begins with the bare word `start`. -/
theorem coreL_markL_start (r : List Char) :
    ∃ R, coreL (markL r) = "start".data ++ R := by
  unfold coreL
  rw [low_markL, pyStrip_markL, u2a_markL, sub1_markL]
  have e1 : markL (sub1 (unicode_to_ascii (List.map pyLower r)))
      = "<start>".data ++ (' ' ::
        (sub1 (unicode_to_ascii (List.map pyLower r)) ++ " <end>".data)) := by
    unfold markL
    rw [show "<start> ".data = "<start>".data ++ [' '] from rfl]
    simp [List.append_assoc]
  rw [e1, collapseRuns_clean p2 "<start>".data _ false (by decide) (by simp),
    collapseRuns_cons_pos_false p2 ' ' _ (by decide)]
  rw [show ("<start>".data ++ (' ' :: collapseRuns p2 true
        (sub1 (unicode_to_ascii (List.map pyLower r)) ++ " <end>".data)))
      = '<' :: 's' :: 't' :: 'a' :: 'r' :: 't' :: '>' :: ' ' :: collapseRuns p2 true
        (sub1 (unicode_to_ascii (List.map pyLower r)) ++ " <end>".data) from rfl,
    collapseRuns_cons_pos_false p3 '<' _ (by decide),
    collapseRuns_cons_neg p3 true 's' _ (by decide),
    collapseRuns_cons_neg p3 false 't' _ (by decide),
    collapseRuns_cons_neg p3 false 'a' _ (by decide),
    collapseRuns_cons_neg p3 false 'r' _ (by decide),
    collapseRuns_cons_neg p3 false 't' _ (by decide),
    collapseRuns_cons_pos_false p3 '>' _ (by decide),
    collapseRuns_cons_pos_true p3 ' ' _ (by decide)]
  unfold pyStrip
  rw [List.dropWhile_cons_of_pos (show isWs ' ' = true from by decide),
    List.dropWhile_cons_of_neg (show ¬ isWs 's' = true from by decide)]
  rw [show ('s' :: 't' :: 'a' :: 'r' :: 't' :: ' ' :: collapseRuns p3 true
        (collapseRuns p2 true
          (sub1 (unicode_to_ascii (List.map pyLower r)) ++ " <end>".data)))
      = "start".data ++ (' ' :: collapseRuns p3 true (collapseRuns p2 true
        (sub1 (unicode_to_ascii (List.map pyLower r)) ++ " <end>".data))) from rfl,
    stripEnd_append "start".data _ "star".data 't' (by decide) (by decide)]
  exact ⟨_, rfl⟩

/-- Helper (pump): a fixed point of the second pass would have to start with
arbitrarily many copies of `start `, which no finite string can. -/
theorem coreL_markL_pump (b : List Char) (hb : coreL (markL b) = b) :
    ∀ n, ∃ r, b = xword n ++ r
  | 0 => by
    obtain ⟨R, hR⟩ := coreL_markL_start b
    exact ⟨R, by rw [← hb, hR]; rfl⟩
  | n + 1 => by
    obtain ⟨r, hr⟩ := coreL_markL_pump b hb n
    obtain ⟨t0, hhead⟩ := xword_head n
    obtain ⟨ys, hlast⟩ := xword_snoc n
    obtain ⟨R, hR⟩ := coreL_markL_clean (xword n) r (xword_plain n)
      (xword_clean p2 (by decide) (by decide) (by decide) (by decide) n)
      (xword_clean p3 (by decide) (by decide) (by decide) (by decide) n)
      t0 hhead ys hlast
    refine ⟨R, ?_⟩
    calc b = coreL (markL b) := hb.symm
      _ = coreL (markL (xword n ++ r)) := by rw [← hr]
      _ = "start ".data ++ xword n ++ R := hR
      _ = xword (n + 1) ++ R := by rw [xword]

/-- C6 counterexample: preprocessing is not idempotent.  For the input
`"Go."`, the first pass yields `<start> go . <end>`, while a second pass
rewrites the markers themselves (the angle brackets are stripped and the
words `start`/`end` survive as ordinary tokens). -/
theorem preprocess_idempotent_cex :
    preprocess_sentence "Go." = "<start> go . <end>" ∧
    preprocess_sentence (preprocess_sentence "Go.")
      = "<start> start go . end <end>" ∧
    preprocess_sentence (preprocess_sentence "Go.") ≠ preprocess_sentence "Go." :=
  ⟨by decide, by decide, by decide⟩

/-- C6 (amended): preprocessing is never idempotent: for **every** input
string, applying `preprocess_sentence` twice differs from applying it once,
because the second pass strips the angle brackets of the markers added by the
first pass and keeps their words, pumping an extra `start ` prefix into the
sentence body. -/
theorem preprocess_not_idempotent (s : String) :
    preprocess_sentence (preprocess_sentence s) ≠ preprocess_sentence s := by
  intro heq
  have hdata : markL (coreL (markL (coreL s.data))) = markL (coreL s.data) :=
    congrArg String.data heq
  have hb : coreL (markL (coreL s.data)) = coreL s.data := by
    unfold markL at hdata
    exact List.append_cancel_left (List.append_cancel_right hdata)
  obtain ⟨r, hr⟩ := coreL_markL_pump (coreL s.data) hb ((coreL s.data).length)
  have hlen := congrArg List.length hr
  rw [List.length_append, xword_length] at hlen
  omega

/-- Witness for the amended C6 at the concrete input of the counterexample. -/
theorem preprocess_not_idempotent_witness :
    preprocess_sentence (preprocess_sentence "Go.") ≠ preprocess_sentence "Go." :=
  preprocess_not_idempotent "Go."

end NMT
